import Mathlib

/-!
Verification of the biscuit-wasm core: a chained-block bearer-token structure
(construction, attenuation by append, sealing, serialization, revocation
identifiers) together with an authorization engine (facts, rules, checks,
policies) as exposed by `src/lib.rs`.

The Rust crate is a thin wasm wrapper around the external `biscuit_auth`
library: the wrapper's own logic (list management in `Authorizer`,
`add_code` ordering, base64 of revocation identifiers, hex key codecs,
error construction) is embedded directly from `src/lib.rs`, while the
behavior that lives in the external library (token signing chain,
serialization, the Datalog evaluation contract) is modelled from the
specification, as noted on each definition.

The signature primitive is modelled symbolically: `sign` is an injective
deterministic function of the key, the previous signature and the message,
so that a verifier holding the key accepts exactly the genuine signature.
-/

namespace BiscuitWasm

/-- Injective encoding of a list of naturals into one natural, used as the
symbolic signature primitive. -/

def encNat : List Nat → Nat
  | [] => 0
  | a :: l => Nat.pair a (encNat l) + 1

/-- Fuelled worker for `lebEnc`; structural recursion on the fuel keeps
the encoder computable by the kernel. -/

def lebEncF : Nat → Nat → List Nat
  | 0, n => [n]
  | fuel + 1, n => if n < 128 then [n] else (n % 128 + 128) :: lebEncF fuel (n / 128)

/-- LEB128-style byte encoding of a natural: seven payload bits per byte,
high bit set on every byte but the last. -/

def lebEnc (n : Nat) : List Nat :=
  lebEncF n n

/-- Decoder for `lebEnc`; rejects non-canonical continuations so that the
encoding is a bijection onto its image. -/

def lebDec : List Nat → Option (Nat × List Nat)
  | [] => none
  | b :: rest =>
    if b < 128 then some (b, rest)
    else
      match lebDec rest with
      | some (m, rest2) => if m = 0 then none else some (b - 128 + 128 * m, rest2)
      | none => none

/-! Length-prefixed codecs for the Datalog units carried by a block.
Modelled from the spec: facts are ground assertions (atom identifiers),
rules derive a new fact from a conjunction of atoms, checks are boolean
conjunction queries; the external text parser and the full Datalog term
language are out of scope, so atoms are identifiers. -/

/-- A rule derives the fact `head` whenever every atom of `body` is present
in the evaluation context. Modelled from the spec. -/

structure Rule where
  head : Nat
  body : List Nat
deriving DecidableEq, Repr

/-- A check or a policy condition: a conjunction of required atoms.
Modelled from the spec. -/

abbrev Cond := List Nat

/-- A policy is an allow or deny verdict guarded by a condition.
Modelled from the spec. -/

structure Policy where
  allow : Bool
  body : Cond
deriving DecidableEq, Repr

/-- Encodes a list of naturals: length prefix then each element. -/

def natsEnc (l : List Nat) : List Nat :=
  lebEnc l.length ++ l.flatMap lebEnc

/-- Decodes `count` naturals from the front of `data`. -/

def natsDecN : Nat → List Nat → Option (List Nat × List Nat)
  | 0, data => some ([], data)
  | n + 1, data =>
    match lebDec data with
    | none => none
    | some (a, rest) =>
      match natsDecN n rest with
      | none => none
      | some (l, rest2) => some (a :: l, rest2)

/-- Decodes a length-prefixed list of naturals. -/

def natsDec (data : List Nat) : Option (List Nat × List Nat) :=
  match lebDec data with
  | none => none
  | some (n, rest) => natsDecN n rest

/-- Encodes one rule: head atom then body conjunction. -/

def ruleEnc (r : Rule) : List Nat :=
  lebEnc r.head ++ natsEnc r.body

/-- Decodes one rule. -/

def ruleDec (data : List Nat) : Option (Rule × List Nat) :=
  match lebDec data with
  | none => none
  | some (h, rest) =>
    match natsDec rest with
    | none => none
    | some (b, rest2) => some (⟨h, b⟩, rest2)

/-- Decodes `count` rules. -/

def rulesDecN : Nat → List Nat → Option (List Rule × List Nat)
  | 0, data => some ([], data)
  | n + 1, data =>
    match ruleDec data with
    | none => none
    | some (r, rest) =>
      match rulesDecN n rest with
      | none => none
      | some (l, rest2) => some (r :: l, rest2)

/-- Encodes a list of rules with a length prefix. -/

def rulesEnc (rs : List Rule) : List Nat :=
  lebEnc rs.length ++ rs.flatMap ruleEnc

/-- Decodes a length-prefixed list of rules. -/

def rulesDec (data : List Nat) : Option (List Rule × List Nat) :=
  match lebDec data with
  | none => none
  | some (n, rest) => rulesDecN n rest

/-- Decodes `count` checks. -/

def checksDecN : Nat → List Nat → Option (List Cond × List Nat)
  | 0, data => some ([], data)
  | n + 1, data =>
    match natsDec data with
    | none => none
    | some (c, rest) =>
      match checksDecN n rest with
      | none => none
      | some (l, rest2) => some (c :: l, rest2)

/-- Encodes a list of checks with a length prefix. -/

def checksEnc (cs : List Cond) : List Nat :=
  lebEnc cs.length ++ cs.flatMap natsEnc

/-- Decodes a length-prefixed list of checks. -/

def checksDec (data : List Nat) : Option (List Cond × List Nat) :=
  match lebDec data with
  | none => none
  | some (n, rest) => checksDecN n rest

/-! The token data model. Modelled from the spec: a block is an ordered
sequence of facts, rules and checks plus a signature binding it to the
chain; a token is an ordered sequence of blocks with a sealed flag; blocks
carry no policies. -/

/-- Error taxonomy of the crate, flattened from `biscuit::error::Token`
and the wrapper's own error construction in `src/lib.rs`. -/

inductive TokError where
  | formatInvalidKeySize (n : Nat)
  | formatInvalidKey (msg : String)
  | formatDeserialization
  | signatureVerification
  | sealedToken
  | languageError (pos : Nat) (msg : String)
  | failedChecks (failing : List Nat)
  | deniedByPolicy (index : Nat)
  | noMatchingPolicy
deriving DecidableEq, Repr

/-- The signed payload of one block: its facts, rules and checks.
Modelled from the spec. -/

structure BlockContent where
  facts : List Nat
  rules : List Rule
  checks : List Cond
deriving DecidableEq, Repr

/-- One signed block of a token. Modelled from the spec. -/

structure Block where
  content : BlockContent
  sig : Nat
deriving DecidableEq, Repr

/-- Serializes a block's signed content: facts, rules, checks. -/

def contentBytes (c : BlockContent) : List Nat :=
  natsEnc c.facts ++ rulesEnc c.rules ++ checksEnc c.checks

/-- Decodes a block's signed content. -/

def contentDec (data : List Nat) : Option (BlockContent × List Nat) :=
  match natsDec data with
  | none => none
  | some (fs, r1) =>
    match rulesDec r1 with
    | none => none
    | some (rs, r2) =>
      match checksDec r2 with
      | none => none
      | some (cs, r3) => some (⟨fs, rs, cs⟩, r3)

/-- Symbolic signature primitive: deterministic and injective in the key,
the previous signature of the chain and the message. Modelled from the
spec, which treats the signature scheme as an opaque sign/verify
capability. -/

def sign (key prev : Nat) (msg : List Nat) : Nat :=
  encNat (key :: prev :: msg)

/-- A token: the root verification key, the signature-chained blocks
(block 0 is the authority block) and the sealed flag. Modelled from the
spec. -/

structure Biscuit where
  rootKey : Nat
  blocks : List Block
  sealed : Bool
deriving DecidableEq, Repr

/-- Signature of the last block of `bs`, or `prev` when `bs` is empty:
the value the next appended block's signature chains to. -/

def lastSig (prev : Nat) : List Block → Nat
  | [] => prev
  | b :: bs => lastSig b.sig bs

/-- Checks every block signature of the chain starting from `prev`.
Modelled from the spec: every subsequent block's signature chains to the
prior block. -/

def chainOk (key prev : Nat) : List Block → Bool
  | [] => true
  | b :: bs => (b.sig == sign key prev (contentBytes b.content)) && chainOk key b.sig bs

/-- A usable token verifies against its root key. Modelled from the spec. -/

def ValidBiscuit (t : Biscuit) : Prop :=
  chainOk t.rootKey 0 t.blocks = true

instance (t : Biscuit) : Decidable (ValidBiscuit t) :=
  inferInstanceAs (Decidable (chainOk t.rootKey 0 t.blocks = true))

/-- Number of blocks in the token, as `Biscuit::block_count`. -/

def Biscuit.block_count (t : Biscuit) : Nat :=
  t.blocks.length

/-- A builder accumulating facts, rules and checks for a new block, as the
wrapper's `BlockBuilder`. -/

structure BlockBuilder where
  facts : List Nat
  rules : List Rule
  checks : List Cond
deriving DecidableEq, Repr

/-- The block content accumulated by a builder. -/

def BlockBuilder.content (b : BlockBuilder) : BlockContent :=
  ⟨b.facts, b.rules, b.checks⟩

/-- Attenuation, as `Biscuit::append`: fails on a sealed token, otherwise
returns a new token whose block sequence is the original's plus a new
block signed chained to the current last block. Modelled from the spec. -/

def Biscuit.append (t : Biscuit) (b : BlockBuilder) : Except TokError Biscuit :=
  if t.sealed then .error .sealedToken
  else
    .ok ⟨t.rootKey,
      t.blocks ++ [⟨b.content, sign t.rootKey (lastSig 0 t.blocks) (contentBytes b.content)⟩],
      t.sealed⟩

/-- Sealing, as `Biscuit::seal`: a new token identical in content with the
sealed flag set. Modelled from the spec. -/

def Biscuit.seal (t : Biscuit) : Biscuit :=
  ⟨t.rootKey, t.blocks, true⟩

/-- Builder for the authority block, as the wrapper's `BiscuitBuilder`. -/

structure BiscuitBuilder where
  facts : List Nat
  rules : List Rule
  checks : List Cond
deriving DecidableEq, Repr

/-- Builds a token whose only block is the authority block signed by the
root key, as `BiscuitBuilder::build`. Modelled from the spec. -/

def BiscuitBuilder.build (b : BiscuitBuilder) (root : Nat) : Biscuit :=
  ⟨root, [⟨⟨b.facts, b.rules, b.checks⟩,
    sign root 0 (contentBytes ⟨b.facts, b.rules, b.checks⟩)⟩], false⟩

/-! Serialization. Modelled from the spec: the binary form is an ordered
list of blocks, each with its serialized content and its signature;
deserialization re-verifies every block's signature against the root key
before accepting the block. -/

/-- Wire form of one block: length-prefixed signed content, then the
signature. -/

def blockBytes (b : Block) : List Nat :=
  lebEnc (contentBytes b.content).length ++ contentBytes b.content ++ lebEnc b.sig

/-- Serializes a token, as `Biscuit::to_bytes`: sealed flag, block count,
then the blocks. Modelled from the spec. -/

def Biscuit.to_bytes (t : Biscuit) : List Nat :=
  lebEnc (if t.sealed then 1 else 0) ++ lebEnc t.blocks.length ++ t.blocks.flatMap blockBytes

/-- Splits `count` leading bytes off `data`, failing on truncation. -/

def takeN (count : Nat) (data : List Nat) : Option (List Nat × List Nat) :=
  if count ≤ data.length then some (data.take count, data.drop count) else none

/-- Reads `count` blocks, verifying each signature against the chain
before parsing its content; rejects trailing bytes after the last block. -/

def readBlocks (key : Nat) : Nat → Nat → List Nat → Except TokError (List Block)
  | _, 0, data => if data = [] then .ok [] else .error .formatDeserialization
  | prev, n + 1, data =>
    match lebDec data with
    | none => .error .formatDeserialization
    | some (len, r1) =>
      match takeN len r1 with
      | none => .error .formatDeserialization
      | some (cb, r2) =>
        match lebDec r2 with
        | none => .error .formatDeserialization
        | some (sg, r3) =>
          if sg = sign key prev cb then
            match contentDec cb with
            | none => .error .formatDeserialization
            | some (c, leftover) =>
              if leftover = [] then
                match readBlocks key sg n r3 with
                | .error e => .error e
                | .ok bs => .ok (⟨c, sg⟩ :: bs)
              else .error .formatDeserialization
          else .error .signatureVerification

/-- Deserializes and verifies a token, as `Biscuit::from_bytes` with a
constant root key function (the wrapper passes the single provided root
key for every key identifier). Modelled from the spec. -/

def Biscuit.from_bytes (data : List Nat) (root : Nat) : Except TokError Biscuit :=
  match lebDec data with
  | none => .error .formatDeserialization
  | some (flag, r1) =>
    if flag = 0 ∨ flag = 1 then
      match lebDec r1 with
      | none => .error .formatDeserialization
      | some (n, r2) =>
        match readBlocks root 0 n r2 with
        | .error e => .error e
        | .ok bs => .ok ⟨root, bs, flag == 1⟩
    else .error .formatDeserialization

/-! Tampering: flipping one bit inside one block's signed content region
of the serialized token. -/

/-- Flips bit `i` of byte `j` of a byte list. -/

def flipAt (l : List Nat) (j i : Nat) : List Nat :=
  l.set j (l.getD j 0 ^^^ 2 ^ i)

/-- Placeholder block used only to make list indexing total. -/

def defaultBlock : Block :=
  ⟨⟨[], [], []⟩, 0⟩

/-- The serialized bytes of the token that precede block `k`'s signed
content: header, earlier blocks, and block `k`'s length prefix. -/

def tamperPre (t : Biscuit) (k : Nat) : List Nat :=
  lebEnc (if t.sealed then 1 else 0) ++ lebEnc t.blocks.length
    ++ (t.blocks.take k).flatMap blockBytes
    ++ lebEnc (contentBytes (t.blocks.getD k defaultBlock).content).length

/-- Block `k`'s signed content region inside the serialized token. -/

def blockContentAt (t : Biscuit) (k : Nat) : List Nat :=
  contentBytes (t.blocks.getD k defaultBlock).content

/-- The serialized bytes of the token that follow block `k`'s signed
content: block `k`'s signature and the later blocks. -/

def tamperPost (t : Biscuit) (k : Nat) : List Nat :=
  lebEnc (t.blocks.getD k defaultBlock).sig ++ (t.blocks.drop (k + 1)).flatMap blockBytes

/-! URL-safe base64 codec, as used by `to_base64`, `from_base64` and
`revocation_identifiers` (the wrapper calls `base64::encode_config` with
the `URL_SAFE` alphabet, padded). -/

/-- Character of the URL-safe base64 alphabet for a sextet value. -/

def b64chr (n : Nat) : Char :=
  if n < 26 then Char.ofNat (65 + n)
  else if n < 52 then Char.ofNat (71 + n)
  else if n < 62 then Char.ofNat (n - 4)
  else if n = 62 then '-'
  else '_'

/-- Sextet value of a URL-safe base64 alphabet character. -/

def b64idx (c : Char) : Option Nat :=
  if 65 ≤ c.toNat ∧ c.toNat ≤ 90 then some (c.toNat - 65)
  else if 97 ≤ c.toNat ∧ c.toNat ≤ 122 then some (c.toNat - 71)
  else if 48 ≤ c.toNat ∧ c.toNat ≤ 57 then some (c.toNat + 4)
  else if c = '-' then some 62
  else if c = '_' then some 63
  else none

/-- Encodes a byte list as URL-safe base64 characters with padding. -/

def b64e : List Nat → List Char
  | [] => []
  | [a] => [b64chr (a / 4), b64chr (a % 4 * 16), '=', '=']
  | [a, b] => [b64chr (a / 4), b64chr (a % 4 * 16 + b / 16), b64chr (b % 16 * 4), '=']
  | a :: b :: c :: rest =>
    b64chr (a / 4) :: b64chr (a % 4 * 16 + b / 16) :: b64chr (b % 16 * 4 + c / 64)
      :: b64chr (c % 64) :: b64e rest

/-- Decodes URL-safe base64 characters back to bytes. -/

def b64d : List Char → Option (List Nat)
  | [] => some []
  | c1 :: c2 :: c3 :: c4 :: rest =>
    match b64idx c1, b64idx c2 with
    | some s1, some s2 =>
      if c3 = '=' then
        if c4 = '=' ∧ rest = [] then some [s1 * 4 + s2 / 16] else none
      else
        match b64idx c3 with
        | some s3 =>
          if c4 = '=' then
            if rest = [] then some [s1 * 4 + s2 / 16, s2 % 16 * 16 + s3 / 4] else none
          else
            match b64idx c4, b64d rest with
            | some s4, some bs =>
              some ((s1 * 4 + s2 / 16) :: (s2 % 16 * 16 + s3 / 4) :: (s3 % 4 * 64 + s4) :: bs)
            | _, _ => none
        | none => none
    | _, _ => none
  | _ => none

/-- Serializes to URL safe base 64 data, as `Biscuit::to_base64`. -/

def Biscuit.to_base64 (t : Biscuit) : String :=
  String.mk (b64e t.to_bytes)

/-- Deserializes a token from URL safe base 64 data, checking signatures
with the root key, as `Biscuit::from_base64`. -/

def Biscuit.from_base64 (s : String) (root : Nat) : Except TokError Biscuit :=
  match b64d s.data with
  | none => .error .formatDeserialization
  | some bs => Biscuit.from_bytes bs root

/-- One URL-safe base64 revocation identifier per block, in block order,
derived from the block's signature bytes, as
`Biscuit::revocation_identifiers` (the wrapper base64-encodes each
identifier with `base64::URL_SAFE`); the identifier bytes themselves are
modelled from the spec as the block's signature material. -/

def Biscuit.revocation_identifiers (t : Biscuit) : List String :=
  t.blocks.map (fun b => String.mk (b64e (lebEnc b.sig)))

/-! Hexadecimal key codec, as `PublicKey::to_hex`/`from_hex` and
`PrivateKey::to_hex`/`from_hex` in `src/lib.rs`. -/

/-- Lowercase hexadecimal digit of a value below 16, as `hex::encode`. -/

def hexDigit (n : Nat) : Char :=
  if n < 10 then Char.ofNat (48 + n) else Char.ofNat (87 + n)

/-- Value of a hexadecimal digit, accepting both cases, as `hex::decode`. -/

def hexVal (c : Char) : Option Nat :=
  if 48 ≤ c.toNat ∧ c.toNat ≤ 57 then some (c.toNat - 48)
  else if 97 ≤ c.toNat ∧ c.toNat ≤ 102 then some (c.toNat - 87)
  else if 65 ≤ c.toNat ∧ c.toNat ≤ 70 then some (c.toNat - 55)
  else none

/-- Hex encoding of a byte list, two digits per byte. -/

def hexEnc : List Nat → List Char
  | [] => []
  | b :: rest => hexDigit (b / 16) :: hexDigit (b % 16) :: hexEnc rest

/-- Hex decoding; fails on odd length or a non-hex character. -/

def hexDec : List Char → Option (List Nat)
  | [] => some []
  | [_] => none
  | c1 :: c2 :: rest =>
    match hexVal c1, hexVal c2, hexDec rest with
    | some h1, some h2, some bs => some ((h1 * 16 + h2) :: bs)
    | _, _, _ => none

/-! Key material. A key value is its 32-byte representation; point
validity is modelled from the spec as byte-range validity, since the
signature primitive is external. -/

/-- Serializes a key to a lowercase hexadecimal string, as `to_hex`. -/

def key_to_hex (k : List Nat) : String :=
  String.mk (hexEnc k)

/-- Deserializes a key from raw bytes, as `from_bytes`. Modelled from the
spec: wrong length fails with `InvalidKeySize`, an invalid encoding fails
with `InvalidKey`. -/

def key_from_bytes (data : List Nat) : Except TokError (List Nat) :=
  if data.length ≠ 32 then .error (.formatInvalidKeySize data.length)
  else if data.all (fun b => b < 256) then .ok data
  else .error (.formatInvalidKey "invalid point encoding")

/-- Deserializes a key from a hexadecimal string, as `from_hex` in
`src/lib.rs`: a hex decoding failure is reported as `InvalidKey`, then
the bytes go through `from_bytes`. -/

def key_from_hex (s : String) : Except TokError (List Nat) :=
  match hexDec s.data with
  | none => .error (.formatInvalidKey "could not deserialize hex encoded key")
  | some data => key_from_bytes data

/-! The authorizer. The wrapper `Authorizer` in `src/lib.rs` holds an
optional token plus its own lists of facts, rules, checks and policies;
`authorize` merges the token's blocks with those lists and drives the
evaluation. The evaluation contract itself is modelled from the spec:
facts and rules merge in block order with the authorizer's appended
after, every check (token and authorizer) must hold over the saturated
context, policies are first-match in addition order, and blocks carry no
policies. -/

/-- A check or policy condition holds when every required atom is in the
context. Modelled from the spec. -/

def evalCond (ctx : List Nat) (c : Cond) : Bool :=
  c.all (fun n => ctx.contains n)

/-- One round of rule application: derive every head whose body holds.
Modelled from the spec, which consumes the Datalog engine as a black box
producing rule-derived facts. -/

def stepDerive (rules : List Rule) (ctx : List Nat) : List Nat :=
  ctx ++ (rules.filter (fun r => evalCond ctx r.body && ! ctx.contains r.head)).map Rule.head

/-- Saturates the context by iterating rule application. -/

def saturate (rules : List Rule) : Nat → List Nat → List Nat
  | 0, ctx => ctx
  | n + 1, ctx => saturate rules n (stepDerive rules ctx)

/-- The wrapper's `Authorizer`: one optional token plus its own lists,
in order of addition. -/

structure Authorizer where
  token : Option Biscuit
  facts : List Nat
  rules : List Rule
  checks : List Cond
  policies : List Policy
deriving DecidableEq, Repr

/-- A fresh authorizer holding the token, as `Biscuit::authorizer`. -/

def Biscuit.authorizer (t : Biscuit) : Authorizer :=
  ⟨some t, [], [], [], []⟩

/-- Blocks contributed by the attached token, authority block first. -/

def Authorizer.tokenBlocks (a : Authorizer) : List Block :=
  match a.token with
  | some t => t.blocks
  | none => []

/-- Token facts in block order, then the authorizer's own facts. -/

def Authorizer.mergedFacts (a : Authorizer) : List Nat :=
  a.tokenBlocks.flatMap (fun b => b.content.facts) ++ a.facts

/-- Token rules in block order, then the authorizer's own rules. -/

def Authorizer.mergedRules (a : Authorizer) : List Rule :=
  a.tokenBlocks.flatMap (fun b => b.content.rules) ++ a.rules

/-- Token checks in block order, then the authorizer's own checks. -/

def Authorizer.mergedChecks (a : Authorizer) : List Cond :=
  a.tokenBlocks.flatMap (fun b => b.content.checks) ++ a.checks

/-- The full evaluation context: merged facts closed under the merged
rules. -/

def Authorizer.context (a : Authorizer) : List Nat :=
  saturate a.mergedRules (a.mergedRules.length + 1) a.mergedFacts

/-- Indices of every check that does not hold, in check order. -/

def failingChecks (ctx : List Nat) (checks : List Cond) : List Nat :=
  (checks.enum.filter (fun p => ! evalCond ctx p.2)).map (fun p => p.1)

/-- First-match policy evaluation from index `i`: an allow policy returns
its index, a deny policy fails with its index, no match fails with
`NoMatchingPolicy`. Modelled from the spec. -/

def evalPolicies (ctx : List Nat) : List Policy → Nat → Except TokError Nat
  | [], _ => .error .noMatchingPolicy
  | p :: ps, i =>
    if evalCond ctx p.body then
      if p.allow then .ok i else .error (.deniedByPolicy i)
    else evalPolicies ctx ps (i + 1)

/-- Runs the authorization checks and policies, as
`Authorizer::authorize`: all checks from token and authorizer must hold,
else the call fails with the complete failing set; then policies are
evaluated first-match. Modelled from the spec. -/

def Authorizer.authorize (a : Authorizer) : Except TokError Nat :=
  if failingChecks a.context a.mergedChecks = [] then
    evalPolicies a.context a.policies 0
  else .error (.failedChecks (failingChecks a.context a.mergedChecks))

/-- The structured result of parsing one source block, as returned by the
external `biscuit::parser::parse_source`. Modelled from the spec. -/

structure ParsedSource where
  facts : List Nat
  rules : List Rule
  checks : List Cond
  policies : List Policy
deriving DecidableEq, Repr

/-- Adds facts, rules, checks and policies as one code block, as
`Authorizer::add_code` in `src/lib.rs`: the whole source is parsed first
(a parse failure reports the offending position as a language error and
changes nothing), then every parsed unit is appended to its list in
source order. The external parser is a parameter. -/

def Authorizer.add_code (parse : String → Except (Nat × String) ParsedSource)
    (a : Authorizer) (source : String) : Authorizer × Except TokError Unit :=
  match parse source with
  | .error e => (a, .error (.languageError e.1 e.2))
  | .ok r =>
    ({ a with
        facts := a.facts ++ r.facts
        rules := a.rules ++ r.rules
        checks := a.checks ++ r.checks
        policies := a.policies ++ r.policies }, .ok ())

/-- Adds facts, rules and checks as one code block, as
`BlockBuilder::add_code` in `src/lib.rs` (a block source carries no
policies). -/

def BlockBuilder.add_code (parse : String → Except (Nat × String) BlockBuilder)
    (b : BlockBuilder) (source : String) : BlockBuilder × Except TokError Unit :=
  match parse source with
  | .error e => (b, .error (.languageError e.1 e.2))
  | .ok r =>
    ({ facts := b.facts ++ r.facts
       rules := b.rules ++ r.rules
       checks := b.checks ++ r.checks }, .ok ())

/-! Helper lemmas about policy and check evaluation. -/

/-- A concrete valid one-block token used as a test vector: root key 5,
authority block carrying the single fact 1. -/

def tok0 : Biscuit :=
  ⟨5, [⟨⟨[1], [], []⟩, sign 5 0 (contentBytes ⟨[1], [], []⟩)⟩], false⟩

/-! Theorems. -/

theorem encNat_inj : ∀ l1 l2 : List Nat, encNat l1 = encNat l2 → l1 = l2 := by
  intro l1
  induction l1 with
  | nil =>
    intro l2 h
    cases l2 with
    | nil => rfl
    | cons b m => simp [encNat] at h
  | cons a l ih =>
    intro l2 h
    cases l2 with
    | nil => simp [encNat] at h
    | cons b m =>
      simp only [encNat, Nat.add_right_cancel_iff, Nat.pair_eq_pair] at h
      obtain ⟨h1, h2⟩ := h
      rw [h1, ih m h2]

theorem lebEncF_congr : ∀ fuel1 fuel2 n : Nat, n ≤ fuel1 → n ≤ fuel2 →
    lebEncF fuel1 n = lebEncF fuel2 n := by
  intro fuel1
  induction fuel1 with
  | zero =>
    intro fuel2 n h1 _
    have hn : n = 0 := by omega
    subst hn
    cases fuel2 with
    | zero => rfl
    | succ f => simp [lebEncF]
  | succ f1 ih =>
    intro fuel2 n h1 h2
    cases fuel2 with
    | zero =>
      have hn : n = 0 := by omega
      subst hn
      simp [lebEncF]
    | succ f2 =>
      simp only [lebEncF]
      by_cases h : n < 128
      · simp [h]
      · have hd : n / 128 < n := by omega
        simp only [h, if_false]
        rw [ih f2 (n / 128) (by omega) (by omega)]

/-- Unfolding rule recovering the natural recurrence of `lebEnc`. -/
theorem lebEnc_eq (n : Nat) :
    lebEnc n = if n < 128 then [n] else (n % 128 + 128) :: lebEnc (n / 128) := by
  cases n with
  | zero => simp [lebEnc, lebEncF]
  | succ m =>
    show lebEncF (m + 1) (m + 1) = _
    simp only [lebEncF]
    by_cases h : m + 1 < 128
    · simp [h]
    · have hd : (m + 1) / 128 < m + 1 := by omega
      simp only [h, if_false, lebEnc]
      rw [lebEncF_congr m ((m + 1) / 128) ((m + 1) / 128) (by omega) (by omega)]

theorem lebDec_enc (n : Nat) : ∀ rest : List Nat, lebDec (lebEnc n ++ rest) = some (n, rest) := by
  induction n using Nat.strong_induction_on with
  | _ n ih =>
    intro rest
    rw [lebEnc_eq]
    by_cases h : n < 128
    · simp [h, lebDec]
    · have hd : n / 128 < n := by omega
      simp only [h, if_false, List.cons_append, lebDec]
      have hb : ¬ (n % 128 + 128 < 128) := by omega
      simp only [hb, if_false, ih (n / 128) hd rest]
      have hq : ¬ (n / 128 = 0) := by omega
      simp only [hq, if_false, Option.some.injEq, Prod.mk.injEq, and_true]
      omega

theorem lebEnc_lt (n : Nat) : ∀ b ∈ lebEnc n, b < 256 := by
  induction n using Nat.strong_induction_on with
  | _ n ih =>
    intro b hb
    rw [lebEnc_eq] at hb
    by_cases h : n < 128
    · simp [h] at hb
      omega
    · have hd : n / 128 < n := by omega
      simp only [h, if_false, List.mem_cons] at hb
      rcases hb with hb | hb
      · omega
      · exact ih (n / 128) hd b hb

theorem natsDecN_enc (l : List Nat) :
    ∀ rest : List Nat, natsDecN l.length (l.flatMap lebEnc ++ rest) = some (l, rest) := by
  induction l with
  | nil => intro rest; simp [natsDecN]
  | cons a l ih =>
    intro rest
    simp only [List.length_cons, List.flatMap_cons, List.append_assoc, natsDecN,
      lebDec_enc, ih rest]

theorem natsDec_enc (l : List Nat) (rest : List Nat) :
    natsDec (natsEnc l ++ rest) = some (l, rest) := by
  simp only [natsDec, natsEnc, List.append_assoc, lebDec_enc, natsDecN_enc]

theorem natsEnc_lt (l : List Nat) : ∀ b ∈ natsEnc l, b < 256 := by
  intro b hb
  simp only [natsEnc, List.mem_append, List.mem_flatMap] at hb
  rcases hb with hb | ⟨a, _, hb⟩
  · exact lebEnc_lt _ b hb
  · exact lebEnc_lt a b hb

theorem ruleDec_enc (r : Rule) (rest : List Nat) :
    ruleDec (ruleEnc r ++ rest) = some (r, rest) := by
  simp only [ruleDec, ruleEnc, List.append_assoc, lebDec_enc, natsDec_enc]

theorem rulesDecN_enc (rs : List Rule) :
    ∀ rest : List Nat, rulesDecN rs.length (rs.flatMap ruleEnc ++ rest) = some (rs, rest) := by
  induction rs with
  | nil => intro rest; simp [rulesDecN]
  | cons r rs ih =>
    intro rest
    simp only [List.length_cons, List.flatMap_cons, List.append_assoc, rulesDecN,
      ruleDec_enc, ih rest]

theorem rulesDec_enc (rs : List Rule) (rest : List Nat) :
    rulesDec (rulesEnc rs ++ rest) = some (rs, rest) := by
  simp only [rulesDec, rulesEnc, List.append_assoc, lebDec_enc, rulesDecN_enc]

theorem rulesEnc_lt (rs : List Rule) : ∀ b ∈ rulesEnc rs, b < 256 := by
  intro b hb
  simp only [rulesEnc, List.mem_append, List.mem_flatMap] at hb
  rcases hb with hb | ⟨r, _, hb⟩
  · exact lebEnc_lt _ b hb
  · simp only [ruleEnc, List.mem_append] at hb
    rcases hb with hb | hb
    · exact lebEnc_lt _ b hb
    · exact natsEnc_lt _ b hb

theorem checksDecN_enc (cs : List Cond) :
    ∀ rest : List Nat, checksDecN cs.length (cs.flatMap natsEnc ++ rest) = some (cs, rest) := by
  induction cs with
  | nil => intro rest; simp [checksDecN]
  | cons c cs ih =>
    intro rest
    simp only [List.length_cons, List.flatMap_cons, List.append_assoc, checksDecN,
      natsDec_enc, ih rest]

theorem checksDec_enc (cs : List Cond) (rest : List Nat) :
    checksDec (checksEnc cs ++ rest) = some (cs, rest) := by
  simp only [checksDec, checksEnc, List.append_assoc, lebDec_enc, checksDecN_enc]

theorem checksEnc_lt (cs : List Cond) : ∀ b ∈ checksEnc cs, b < 256 := by
  intro b hb
  simp only [checksEnc, List.mem_append, List.mem_flatMap] at hb
  rcases hb with hb | ⟨c, _, hb⟩
  · exact lebEnc_lt _ b hb
  · exact natsEnc_lt _ b hb

theorem contentDec_enc (c : BlockContent) (rest : List Nat) :
    contentDec (contentBytes c ++ rest) = some (c, rest) := by
  simp only [contentDec, contentBytes, List.append_assoc, natsDec_enc, rulesDec_enc,
    checksDec_enc]

theorem contentBytes_lt (c : BlockContent) : ∀ b ∈ contentBytes c, b < 256 := by
  intro b hb
  simp only [contentBytes, List.mem_append] at hb
  rcases hb with (hb | hb) | hb
  · exact natsEnc_lt _ b hb
  · exact rulesEnc_lt _ b hb
  · exact checksEnc_lt _ b hb

theorem sign_msg_inj (key prev : Nat) (m1 m2 : List Nat) (h : sign key prev m1 = sign key prev m2) :
    m1 = m2 := by
  have := encNat_inj _ _ h
  simpa using this

theorem chainOk_append (key prev : Nat) (xs ys : List Block) :
    chainOk key prev (xs ++ ys) = (chainOk key prev xs && chainOk key (lastSig prev xs) ys) := by
  induction xs generalizing prev with
  | nil => simp [chainOk, lastSig]
  | cons b bs ih =>
    simp only [List.cons_append, chainOk, lastSig, List.append_eq, ih b.sig, Bool.and_assoc]

theorem takeN_append (count : Nat) (l rest : List Nat) (h : l.length = count) :
    takeN count (l ++ rest) = some (l, rest) := by
  subst h
  simp [takeN, List.take_left, List.drop_left]

theorem readBlocks_step (key prev : Nat) (b : Block) (n : Nat) (rest : List Nat)
    (h : b.sig = sign key prev (contentBytes b.content)) :
    readBlocks key prev (n + 1) (blockBytes b ++ rest)
      = match readBlocks key b.sig n rest with
        | .error e => .error e
        | .ok bs => .ok (b :: bs) := by
  obtain ⟨c, s⟩ := b
  simp only at h
  have hcd : contentDec (contentBytes c) = some (c, []) := by
    have := contentDec_enc c []
    simpa using this
  simp only [readBlocks, blockBytes, List.append_assoc, lebDec_enc,
    takeN_append _ _ _ rfl, h, if_true, hcd]

theorem readBlocks_chain (key : Nat) (bs : List Block) :
    ∀ prev, chainOk key prev bs = true → ∀ n rest,
      readBlocks key prev (bs.length + n) (bs.flatMap blockBytes ++ rest)
        = match readBlocks key (lastSig prev bs) n rest with
          | .error e => .error e
          | .ok tail => .ok (bs ++ tail) := by
  induction bs with
  | nil =>
    intro prev _ n rest
    simp only [List.length_nil, Nat.zero_add, List.flatMap_nil, List.nil_append, lastSig]
    cases readBlocks key prev n rest <;> simp
  | cons b bs ih =>
    intro prev hchain n rest
    simp only [chainOk, Bool.and_eq_true, beq_iff_eq] at hchain
    obtain ⟨hsig, hrest⟩ := hchain
    simp only [List.length_cons, List.flatMap_cons, List.append_assoc, lastSig]
    have hlen : bs.length + 1 + n = bs.length + n + 1 := by omega
    rw [hlen, readBlocks_step key prev b (bs.length + n) _ hsig, ih b.sig hrest n rest]
    cases readBlocks key (lastSig b.sig bs) n rest <;> simp

theorem from_bytes_to_bytes (t : Biscuit) (h : ValidBiscuit t) :
    Biscuit.from_bytes t.to_bytes t.rootKey = .ok t := by
  have hbase : readBlocks t.rootKey (lastSig 0 t.blocks) 0 [] = .ok [] := by
    simp [readBlocks]
  have hloop := readBlocks_chain t.rootKey t.blocks 0 h 0 []
  rw [hbase] at hloop
  simp only [List.append_nil, Nat.add_zero] at hloop
  have hflag : ((if t.sealed then (1 : Nat) else 0) = 0 ∨ (if t.sealed then (1 : Nat) else 0) = 1) := by
    cases t.sealed <;> simp
  have hseal : (((if t.sealed then (1 : Nat) else 0) == 1) : Bool) = t.sealed := by
    cases t.sealed <;> rfl
  simp [Biscuit.to_bytes, Biscuit.from_bytes, List.append_assoc, lebDec_enc, hflag,
    hloop, hseal]

theorem blockBytes_lt (b : Block) : ∀ x ∈ blockBytes b, x < 256 := by
  intro x hx
  simp only [blockBytes, List.mem_append] at hx
  rcases hx with (hx | hx) | hx
  · exact lebEnc_lt _ x hx
  · exact contentBytes_lt _ x hx
  · exact lebEnc_lt _ x hx

theorem to_bytes_lt (t : Biscuit) : ∀ x ∈ t.to_bytes, x < 256 := by
  intro x hx
  simp only [Biscuit.to_bytes, List.mem_append, List.mem_flatMap] at hx
  rcases hx with (hx | hx) | ⟨b, _, hx⟩
  · exact lebEnc_lt _ x hx
  · exact lebEnc_lt _ x hx
  · exact blockBytes_lt b x hx

theorem flipAt_length (l : List Nat) (j i : Nat) : (flipAt l j i).length = l.length := by
  simp [flipAt]

theorem flipAt_ne (l : List Nat) (j i : Nat) (hj : j < l.length) : flipAt l j i ≠ l := by
  intro heq
  have h1 := congrArg (fun x : List Nat => x[j]?) heq
  simp only [flipAt, List.getElem?_set_self hj, List.getElem?_eq_getElem hj,
    Option.some.injEq] at h1
  have h2 : l.getD j 0 = l[j] := by
    simp [List.getD_eq_getElem?_getD, List.getElem?_eq_getElem hj]
  rw [h2] at h1
  have h5 : l[j] ^^^ (l[j] ^^^ 2 ^ i) = l[j] ^^^ l[j] := by rw [h1]
  rw [← Nat.xor_assoc, Nat.xor_self, Nat.zero_xor] at h5
  have h4 : (2 : Nat) ^ i ≠ 0 := by positivity
  exact h4 h5

theorem getD_blocks_eq (t : Biscuit) (k : Nat) (hk : k < t.blocks.length) :
    t.blocks.getD k defaultBlock = t.blocks[k] := by
  simp [List.getD_eq_getElem?_getD, List.getElem?_eq_getElem hk]

theorem blocks_split (t : Biscuit) (k : Nat) (hk : k < t.blocks.length) :
    t.blocks = t.blocks.take k ++ t.blocks[k] :: t.blocks.drop (k + 1) := by
  conv_lhs => rw [← List.take_append_drop k t.blocks]
  rw [List.drop_eq_getElem_cons hk]

/-- The serialized token splits around block `k`'s signed content. -/
theorem to_bytes_decomp (t : Biscuit) (k : Nat) (hk : k < t.blocks.length) :
    t.to_bytes = tamperPre t k ++ blockContentAt t k ++ tamperPost t k := by
  have hsplit : t.blocks.flatMap blockBytes
      = (t.blocks.take k).flatMap blockBytes ++ blockBytes t.blocks[k]
        ++ (t.blocks.drop (k + 1)).flatMap blockBytes := by
    conv_lhs => rw [blocks_split t k hk]
    simp only [List.flatMap_append, List.flatMap_cons, List.append_assoc]
  simp only [Biscuit.to_bytes, tamperPre, blockContentAt, tamperPost, getD_blocks_eq t k hk,
    hsplit, blockBytes, List.append_assoc]

theorem readBlocks_tamper (key prev : Nat) (cb : List Nat) (sg : Nat) (j i n : Nat)
    (rest : List Nat) (hsg : sg = sign key prev cb) (hj : j < cb.length) :
    readBlocks key prev (n + 1) (lebEnc cb.length ++ (flipAt cb j i ++ (lebEnc sg ++ rest)))
      = .error .signatureVerification := by
  have hne : ¬ (sg = sign key prev (flipAt cb j i)) := by
    intro heq
    rw [hsg] at heq
    exact flipAt_ne cb j i hj (sign_msg_inj _ _ _ _ heq.symm)
  simp only [readBlocks, List.append_assoc, lebDec_enc,
    takeN_append _ _ _ (flipAt_length cb j i), hne, if_false]

/-- Flipping any single bit inside block `k`'s signed content makes
deserialization fail with a signature error. -/
theorem from_bytes_flip (t : Biscuit) (h : ValidBiscuit t) (k j i : Nat)
    (hk : k < t.blocks.length) (hj : j < (blockContentAt t k).length) :
    Biscuit.from_bytes (tamperPre t k ++ flipAt (blockContentAt t k) j i ++ tamperPost t k)
      t.rootKey = .error .signatureVerification := by
  have hgd := getD_blocks_eq t k hk
  have hchain : chainOk t.rootKey 0 t.blocks = true := h
  rw [blocks_split t k hk, chainOk_append, Bool.and_eq_true] at hchain
  obtain ⟨hc1, hc2⟩ := hchain
  simp only [chainOk, Bool.and_eq_true, beq_iff_eq] at hc2
  obtain ⟨hsigk, _⟩ := hc2
  have hflag : ((if t.sealed then (1 : Nat) else 0) = 0 ∨ (if t.sealed then (1 : Nat) else 0) = 1) := by
    cases t.sealed <;> simp
  have hj2 : j < (contentBytes t.blocks[k].content).length := by
    rw [blockContentAt, hgd] at hj
    exact hj
  have hcount : t.blocks.length = (t.blocks.take k).length + ((t.blocks.length - k - 1) + 1) := by
    simp only [List.length_take]
    omega
  have htail := readBlocks_tamper t.rootKey (lastSig 0 (t.blocks.take k))
    (contentBytes t.blocks[k].content) t.blocks[k].sig j i (t.blocks.length - k - 1)
    ((t.blocks.drop (k + 1)).flatMap blockBytes) hsigk hj2
  have hloop := readBlocks_chain t.rootKey (t.blocks.take k) 0 hc1
    ((t.blocks.length - k - 1) + 1)
    (lebEnc (contentBytes t.blocks[k].content).length
      ++ (flipAt (contentBytes t.blocks[k].content) j i
        ++ (lebEnc t.blocks[k].sig ++ (t.blocks.drop (k + 1)).flatMap blockBytes)))
  rw [htail] at hloop
  simp only [Biscuit.from_bytes, tamperPre, blockContentAt, tamperPost, hgd,
    List.append_assoc, lebDec_enc, hflag, if_true]
  rw [hcount, hloop]

theorem b64idx_chr (n : Nat) (h : n < 64) : b64idx (b64chr n) = some n := by
  have hall : ∀ m : Fin 64, b64idx (b64chr m.1) = some m.1 := by decide
  exact hall ⟨n, h⟩

theorem b64chr_ne_pad (n : Nat) (h : n < 64) : b64chr n ≠ '=' := by
  have hall : ∀ m : Fin 64, b64chr m.1 ≠ '=' := by decide
  exact hall ⟨n, h⟩

theorem pack_div (k x y : Nat) (hk : 0 < k) (hy : y < k) : (x * k + y) / k = x := by
  rw [Nat.mul_comm x k, Nat.mul_add_div hk, Nat.div_eq_of_lt hy, Nat.add_zero]

theorem pack_mod (k x y : Nat) (_hk : 0 < k) (hy : y < k) : (x * k + y) % k = y := by
  rw [Nat.mul_comm x k, Nat.mul_add_mod, Nat.mod_eq_of_lt hy]

theorem b64d_enc : ∀ bs : List Nat, (∀ b ∈ bs, b < 256) → b64d (b64e bs) = some bs := by
  intro bs
  induction bs using b64e.induct with
  | case1 =>
    intro _
    simp [b64e, b64d]
  | case2 a =>
    intro hlt
    have ha : a < 256 := hlt a (by simp)
    have h1 : a / 4 < 64 := by omega
    have h2 : a % 4 * 16 < 64 := by omega
    have e1 : a % 4 * 16 / 16 = a % 4 := by
      have := pack_div 16 (a % 4) 0 (by norm_num) (by norm_num)
      rw [Nat.add_zero] at this
      exact this
    simp [b64e, b64d, b64idx_chr _ h1, b64idx_chr _ h2, e1]
    omega
  | case3 a b =>
    intro hlt
    have ha : a < 256 := hlt a (by simp)
    have hb : b < 256 := hlt b (by simp)
    have h1 : a / 4 < 64 := by omega
    have h2 : a % 4 * 16 + b / 16 < 64 := by omega
    have h3 : b % 16 * 4 < 64 := by omega
    have e1 : (a % 4 * 16 + b / 16) / 16 = a % 4 := pack_div 16 _ _ (by norm_num) (by omega)
    have e2 : (a % 4 * 16 + b / 16) % 16 = b / 16 := pack_mod 16 _ _ (by norm_num) (by omega)
    have e3 : b % 16 * 4 / 4 = b % 16 := by
      have := pack_div 4 (b % 16) 0 (by norm_num) (by norm_num)
      rw [Nat.add_zero] at this
      exact this
    simp [b64e, b64d, b64idx_chr _ h1, b64idx_chr _ h2, b64idx_chr _ h3,
      b64chr_ne_pad _ h3, e1, e2, e3]
    omega
  | case4 a b c rest ih =>
    intro hlt
    have ha : a < 256 := hlt a (by simp)
    have hb : b < 256 := hlt b (by simp)
    have hc : c < 256 := hlt c (by simp)
    have hrest : ∀ x ∈ rest, x < 256 := by
      intro x hx
      exact hlt x (by simp [hx])
    have h1 : a / 4 < 64 := by omega
    have h2 : a % 4 * 16 + b / 16 < 64 := by omega
    have h3 : b % 16 * 4 + c / 64 < 64 := by omega
    have h4 : c % 64 < 64 := by omega
    have e1 : (a % 4 * 16 + b / 16) / 16 = a % 4 := pack_div 16 _ _ (by norm_num) (by omega)
    have e2 : (a % 4 * 16 + b / 16) % 16 = b / 16 := pack_mod 16 _ _ (by norm_num) (by omega)
    have e3 : (b % 16 * 4 + c / 64) / 4 = b % 16 := pack_div 4 _ _ (by norm_num) (by omega)
    have e4 : (b % 16 * 4 + c / 64) % 4 = c / 64 := pack_mod 4 _ _ (by norm_num) (by omega)
    simp [b64e, b64d, b64idx_chr _ h1, b64idx_chr _ h2, b64idx_chr _ h3, b64idx_chr _ h4,
      b64chr_ne_pad _ h3, b64chr_ne_pad _ h4, e1, e2, e3, e4, ih hrest]
    omega

theorem from_base64_to_base64 (t : Biscuit) (h : ValidBiscuit t) :
    Biscuit.from_base64 t.to_base64 t.rootKey = .ok t := by
  have hdata : (String.mk (b64e t.to_bytes)).data = b64e t.to_bytes := rfl
  simp only [Biscuit.from_base64, Biscuit.to_base64, hdata, b64d_enc _ (to_bytes_lt t),
    from_bytes_to_bytes t h]

theorem hexVal_digit (n : Nat) (h : n < 16) : hexVal (hexDigit n) = some n := by
  have hall : ∀ m : Fin 16, hexVal (hexDigit m.1) = some m.1 := by decide
  exact hall ⟨n, h⟩

theorem hexDec_enc : ∀ bs : List Nat, (∀ b ∈ bs, b < 256) → hexDec (hexEnc bs) = some bs := by
  intro bs
  induction bs with
  | nil => intro _; rfl
  | cons b rest ih =>
    intro hlt
    have hb : b < 256 := hlt b (by simp)
    have hrest : ∀ x ∈ rest, x < 256 := by
      intro x hx
      exact hlt x (by simp [hx])
    have h1 : b / 16 < 16 := by omega
    have h2 : b % 16 < 16 := by omega
    have he : b / 16 * 16 + b % 16 = b := by omega
    simp [hexEnc, hexDec, hexVal_digit _ h1, hexVal_digit _ h2, ih hrest, he]

theorem evalPolicies_first (ctx : List Nat) :
    ∀ (ps : List Policy) (k : Nat) (hk : k < ps.length) (i : Nat),
      evalCond ctx (ps.get ⟨k, hk⟩).body = true →
      (∀ j (hj : j < ps.length), j < k → evalCond ctx (ps.get ⟨j, hj⟩).body = false) →
      evalPolicies ctx ps i =
        if (ps.get ⟨k, hk⟩).allow then .ok (i + k) else .error (.deniedByPolicy (i + k)) := by
  intro ps
  induction ps with
  | nil =>
    intro k hk
    exact absurd hk (by simp)
  | cons p ps ih =>
    intro k hk i hsat hfirst
    cases k with
    | zero =>
      simp only [List.get] at hsat ⊢
      simp [evalPolicies, hsat]
    | succ k2 =>
      have h0 : evalCond ctx p.body = false := hfirst 0 (by simp) (by omega)
      have hk2 : k2 < ps.length := by
        simp only [List.length_cons] at hk
        omega
      have hfirst2 : ∀ j (hj : j < ps.length), j < k2 →
          evalCond ctx (ps.get ⟨j, hj⟩).body = false := by
        intro j hj hjk
        have := hfirst (j + 1) (by simp; omega) (by omega)
        simpa [List.get] using this
      have hsat2 : evalCond ctx (ps.get ⟨k2, hk2⟩).body = true := by
        simpa [List.get] using hsat
      have := ih k2 hk2 (i + 1) hsat2 hfirst2
      simp only [evalPolicies, h0, Bool.false_eq_true, if_false, this, List.get]
      have harith : i + 1 + k2 = i + (k2 + 1) := by omega
      rw [harith]

theorem evalPolicies_none (ctx : List Nat) :
    ∀ (ps : List Policy), (∀ j (hj : j < ps.length), evalCond ctx (ps.get ⟨j, hj⟩).body = false) →
      ∀ i, evalPolicies ctx ps i = .error .noMatchingPolicy := by
  intro ps
  induction ps with
  | nil => intro _ i; rfl
  | cons p ps ih =>
    intro hall i
    have h0 : evalCond ctx p.body = false := hall 0 (by simp)
    have hall2 : ∀ j (hj : j < ps.length), evalCond ctx (ps.get ⟨j, hj⟩).body = false := by
      intro j hj
      have := hall (j + 1) (by simp; omega)
      simpa [List.get] using this
    simp only [evalPolicies, h0, Bool.false_eq_true, if_false, ih hall2]

theorem mem_failingChecks (ctx : List Nat) (checks : List Cond) (i : Nat) :
    i ∈ failingChecks ctx checks ↔
      ∃ hi : i < checks.length, evalCond ctx (checks.get ⟨i, hi⟩) = false := by
  simp only [failingChecks, List.mem_map, List.mem_filter, Prod.exists]
  constructor
  · rintro ⟨j, x, ⟨hmem, hval⟩, rfl⟩
    rw [List.mk_mem_enum_iff_getElem?] at hmem
    have hj : j < checks.length := by
      by_contra hc
      rw [List.getElem?_eq_none (by omega)] at hmem
      exact Option.noConfusion hmem
    refine ⟨hj, ?_⟩
    rw [List.getElem?_eq_getElem hj, Option.some.injEq] at hmem
    simp only [Bool.not_eq_true', List.get_eq_getElem] at hval ⊢
    rw [hmem]
    exact hval
  · rintro ⟨hi, hval⟩
    refine ⟨i, checks.get ⟨i, hi⟩, ⟨?_, ?_⟩, rfl⟩
    · rw [List.mk_mem_enum_iff_getElem?]
      simp [List.getElem?_eq_getElem hi]
    · simpa using hval

/-- C1: with an authorizer whose checks all pass, `authorize` evaluates
only the authorizer's own policies (token blocks carry no policies),
strictly in addition order, stopping at the first policy whose condition
is satisfied: a first-matching allow policy makes `authorize` return that
policy's index, a first-matching deny policy makes it fail with
`DeniedByPolicy` at that index, and if no policy matches it fails with
`NoMatchingPolicy`. -/
theorem authorize_policy_first_match (a : Authorizer)
    (hpass : failingChecks a.context a.mergedChecks = []) :
    (∀ k (hk : k < a.policies.length),
      evalCond a.context (a.policies.get ⟨k, hk⟩).body = true →
      (∀ j (hj : j < a.policies.length), j < k →
        evalCond a.context (a.policies.get ⟨j, hj⟩).body = false) →
      ((a.policies.get ⟨k, hk⟩).allow = true → a.authorize = .ok k) ∧
      ((a.policies.get ⟨k, hk⟩).allow = false →
        a.authorize = .error (.deniedByPolicy k))) ∧
    ((∀ j (hj : j < a.policies.length),
        evalCond a.context (a.policies.get ⟨j, hj⟩).body = false) →
      a.authorize = .error .noMatchingPolicy) := by
  constructor
  · intro k hk hsat hfirst
    have hev := evalPolicies_first a.context a.policies k hk 0 hsat hfirst
    rw [Nat.zero_add] at hev
    constructor
    · intro hallow
      simp only [Authorizer.authorize, hpass, if_true, hev, hallow, if_true]
    · intro hdeny
      simp only [Authorizer.authorize, hpass, if_true, hev, hdeny, Bool.false_eq_true, if_false]
  · intro hnone
    have hev := evalPolicies_none a.context a.policies hnone 0
    simp only [Authorizer.authorize, hpass, if_true, hev]

/-- C1 witness: with policies deny-if-false, allow-if-true, allow-if-true
and passing checks, `authorize` returns index 1. -/
theorem authorize_policy_first_match_witness :
    (Authorizer.mk none [] [] [] [⟨false, [9]⟩, ⟨true, []⟩, ⟨true, []⟩]).authorize = .ok 1 := by
  have h := (authorize_policy_first_match
    (Authorizer.mk none [] [] [] [⟨false, [9]⟩, ⟨true, []⟩, ⟨true, []⟩]) (by decide)).1
    1 (by decide) (by decide) (by decide)
  exact h.1 (by decide)

/-- C2: whenever any merged check (token checks in block order, then
authorizer checks) fails, `authorize` fails with `FailedChecks` carrying
exactly the indices of every failing check of the merged list. -/
theorem authorize_failed_checks (a : Authorizer)
    (hfail : failingChecks a.context a.mergedChecks ≠ []) :
    a.authorize = .error (.failedChecks (failingChecks a.context a.mergedChecks)) ∧
    (∀ i, i ∈ failingChecks a.context a.mergedChecks ↔
      ∃ hi : i < a.mergedChecks.length,
        evalCond a.context (a.mergedChecks.get ⟨i, hi⟩) = false) := by
  constructor
  · simp only [Authorizer.authorize, hfail, if_false]
  · intro i
    exact mem_failingChecks a.context a.mergedChecks i

/-- C2 witness: merged checks true-false-true from a token and the
authorizer yield `FailedChecks [1]`, and adding a second failing check
yields `FailedChecks [1, 2]`. -/
theorem authorize_failed_checks_witness :
    (Authorizer.mk (some ⟨0, [⟨⟨[], [], [[], [9]]⟩, 0⟩], false⟩) [] [] [[]] []).authorize
      = .error (.failedChecks [1]) ∧
    (Authorizer.mk (some ⟨0, [⟨⟨[], [], [[], [9]]⟩, 0⟩], false⟩) [] [] [[8], []] []).authorize
      = .error (.failedChecks [1, 2]) := by
  constructor
  · have h := (authorize_failed_checks
      (Authorizer.mk (some ⟨0, [⟨⟨[], [], [[], [9]]⟩, 0⟩], false⟩) [] [] [[]] [])
      (by decide)).1
    rw [h]
    rfl
  · have h := (authorize_failed_checks
      (Authorizer.mk (some ⟨0, [⟨⟨[], [], [[], [9]]⟩, 0⟩], false⟩) [] [] [[8], []] [])
      (by decide)).1
    rw [h]
    rfl

/-- C7: `authorize` is deterministic: two authorizers holding identical
token content and identical added facts, rules, checks and policies
produce the same verdict and the same matched index. -/
theorem authorize_deterministic (a1 a2 : Authorizer) (ht : a1.token = a2.token)
    (hf : a1.facts = a2.facts) (hr : a1.rules = a2.rules) (hc : a1.checks = a2.checks)
    (hp : a1.policies = a2.policies) : a1.authorize = a2.authorize := by
  have : a1 = a2 := by
    cases a1
    cases a2
    simp only at ht hf hr hc hp
    rw [ht, hf, hr, hc, hp]
  rw [this]

/-- C7 witness: two structurally equal authorizers give the same result. -/
theorem authorize_deterministic_witness :
    (Authorizer.mk none [3] [] [[3]] [⟨true, []⟩]).authorize
      = (Authorizer.mk none [3] [] [[3]] [⟨true, []⟩]).authorize :=
  authorize_deterministic _ _ rfl rfl rfl rfl rfl

/-- C3: appending a block to an unsealed token succeeds and returns a new
token with one more block whose block sequence extends the original's;
the original token value is unchanged (the model is persistent: `append`
reads `t` and builds a new value, so `t`'s blocks, count and sealed flag
are the same before and after the call). -/
theorem append_block_count (t : Biscuit) (b : BlockBuilder) (h : t.sealed = false) :
    ∃ t2, t.append b = .ok t2 ∧ t2.block_count = t.block_count + 1 ∧
      t2.blocks.take t.block_count = t.blocks ∧ t2.sealed = t.sealed ∧
      t2.rootKey = t.rootKey := by
  refine ⟨⟨t.rootKey,
    t.blocks ++ [⟨b.content, sign t.rootKey (lastSig 0 t.blocks) (contentBytes b.content)⟩],
    t.sealed⟩, ?_, ?_, ?_, rfl, rfl⟩
  · simp only [Biscuit.append, h, Bool.false_eq_true, if_false]
  · simp [Biscuit.block_count]
  · simp only [Biscuit.block_count, List.take_left]

/-- C3 witness: appending to a concrete one-block token yields two
blocks and preserves the original block list as a front segment. -/
theorem append_block_count_witness :
    ∃ t2, tok0.append ⟨[2], [], []⟩ = .ok t2 ∧
      t2.block_count = tok0.block_count + 1 ∧
      t2.blocks.take tok0.block_count = tok0.blocks ∧
      t2.sealed = tok0.sealed ∧ t2.rootKey = tok0.rootKey :=
  append_block_count tok0 ⟨[2], [], []⟩ rfl

/-- C4: sealing returns a new token with the same root key and blocks and
the sealed flag set; `append` on the sealed value always fails with
`SealedToken`, while an unsealed original still appends successfully
(sealing does not mutate the original); sealing is irreversible (the
model offers no unsealing operation, and sealing a sealed token is the
identity). -/
theorem seal_rejects_append (t : Biscuit) (b : BlockBuilder) (h : t.sealed = false) :
    t.seal.blocks = t.blocks ∧ t.seal.rootKey = t.rootKey ∧ t.seal.sealed = true ∧
    (∀ b2 : BlockBuilder, t.seal.append b2 = .error .sealedToken) ∧
    (∃ t2, t.append b = .ok t2) ∧ t.seal.seal = t.seal := by
  refine ⟨rfl, rfl, rfl, ?_, ?_, rfl⟩
  · intro b2
    simp [Biscuit.append, Biscuit.seal]
  · refine ⟨⟨t.rootKey,
      t.blocks ++ [⟨b.content, sign t.rootKey (lastSig 0 t.blocks) (contentBytes b.content)⟩],
      t.sealed⟩, ?_⟩
    simp only [Biscuit.append, h, Bool.false_eq_true, if_false]

/-- C4 witness: the sealed copy of a concrete token rejects appends while
the original still appends. -/
theorem seal_rejects_append_witness :
    tok0.seal.blocks = tok0.blocks ∧ tok0.seal.rootKey = tok0.rootKey ∧
    tok0.seal.sealed = true ∧
    (∀ b2 : BlockBuilder, tok0.seal.append b2 = .error .sealedToken) ∧
    (∃ t2, tok0.append ⟨[2], [], []⟩ = .ok t2) ∧ tok0.seal.seal = tok0.seal :=
  seal_rejects_append tok0 ⟨[2], [], []⟩ rfl

/-- C5: a valid token serializes and deserializes back, against its root
key, to a token equal in block content and order (here: equal outright);
the same round trip holds through URL-safe base64. -/
theorem serialization_round_trip (t : Biscuit) (h : ValidBiscuit t) :
    Biscuit.from_bytes t.to_bytes t.rootKey = .ok t ∧
    Biscuit.from_base64 t.to_base64 t.rootKey = .ok t :=
  ⟨from_bytes_to_bytes t h, from_base64_to_base64 t h⟩

/-- C5 witness: round trip of a concrete valid one-block token, in both
binary and base64 form. -/
theorem serialization_round_trip_witness :
    Biscuit.from_bytes tok0.to_bytes tok0.rootKey = .ok tok0 ∧
    Biscuit.from_base64 tok0.to_base64 tok0.rootKey = .ok tok0 :=
  serialization_round_trip tok0 (by decide)

/-- C6: the serialized bytes of a valid token split around block `k`'s
signed content region, and flipping any single bit of any byte inside
that region makes `from_bytes` fail with a signature error (the signature
re-verification against the root key catches the tamper). -/
theorem bitflip_signature_error (t : Biscuit) (h : ValidBiscuit t) (k j i : Nat)
    (hk : k < t.blocks.length) (hj : j < (blockContentAt t k).length) (_hi : i < 8) :
    t.to_bytes = tamperPre t k ++ blockContentAt t k ++ tamperPost t k ∧
    Biscuit.from_bytes (tamperPre t k ++ flipAt (blockContentAt t k) j i ++ tamperPost t k)
      t.rootKey = .error .signatureVerification :=
  ⟨to_bytes_decomp t k hk, from_bytes_flip t h k j i hk hj⟩

/-- C6 witness: flipping bit 0 of byte 0 of the authority block's signed
content of a concrete valid token makes deserialization fail with a
signature error. -/
theorem bitflip_signature_error_witness :
    tok0.to_bytes = tamperPre tok0 0 ++ blockContentAt tok0 0 ++ tamperPost tok0 0 ∧
    Biscuit.from_bytes
        (tamperPre tok0 0 ++ flipAt (blockContentAt tok0 0) 0 0 ++ tamperPost tok0 0)
        tok0.rootKey
      = .error .signatureVerification :=
  bitflip_signature_error tok0 (by decide) 0 0 0 (by decide) (by decide) (by decide)

/-- C8: `add_code` on an authorizer or a block builder is atomic: when
the external parse fails, the call reports a language error carrying the
offending position and leaves the state exactly unchanged; when it
succeeds, every parsed fact, rule, check and policy is appended to its
list in source order. -/
theorem add_code_atomic (parse : String → Except (Nat × String) ParsedSource)
    (bparse : String → Except (Nat × String) BlockBuilder)
    (a : Authorizer) (b : BlockBuilder) (src : String) :
    (∀ pos msg, parse src = .error (pos, msg) →
      Authorizer.add_code parse a src = (a, .error (.languageError pos msg))) ∧
    (∀ r, parse src = .ok r →
      Authorizer.add_code parse a src =
        (⟨a.token, a.facts ++ r.facts, a.rules ++ r.rules, a.checks ++ r.checks,
          a.policies ++ r.policies⟩, .ok ())) ∧
    (∀ pos msg, bparse src = .error (pos, msg) →
      BlockBuilder.add_code bparse b src = (b, .error (.languageError pos msg))) ∧
    (∀ r, bparse src = .ok r →
      BlockBuilder.add_code bparse b src =
        (⟨b.facts ++ r.facts, b.rules ++ r.rules, b.checks ++ r.checks⟩, .ok ())) := by
  refine ⟨?_, ?_, ?_, ?_⟩
  · intro pos msg hp
    simp [Authorizer.add_code, hp]
  · intro r hp
    simp [Authorizer.add_code, hp]
  · intro pos msg hp
    simp [BlockBuilder.add_code, hp]
  · intro r hp
    simp [BlockBuilder.add_code, hp]

/-- C8 witness: a failing parse leaves a concrete authorizer unchanged
and reports the position; a succeeding parse appends the parsed units. -/
theorem add_code_atomic_witness :
    Authorizer.add_code (fun _ => .error (3, "bad")) (Authorizer.mk none [1] [] [] []) "x"
      = (Authorizer.mk none [1] [] [] [], .error (.languageError 3 "bad")) ∧
    BlockBuilder.add_code (fun _ => .ok ⟨[7], [], []⟩) (BlockBuilder.mk [1] [] []) "y"
      = (BlockBuilder.mk [1, 7] [] [], .ok ()) := by
  constructor
  · exact (add_code_atomic (fun _ => .error (3, "bad")) (fun _ => .ok ⟨[7], [], []⟩)
      (Authorizer.mk none [1] [] [] []) (BlockBuilder.mk [1] [] []) "x").1 3 "bad" rfl
  · exact (add_code_atomic (fun _ => .error (3, "bad")) (fun _ => .ok ⟨[7], [], []⟩)
      (Authorizer.mk none [1] [] [] []) (BlockBuilder.mk [1] [] []) "y").2.2.2 ⟨[7], [], []⟩ rfl

/-- C9: hex round trip for a generated 32-byte key; `from_bytes` on a
wrong-length buffer fails with `InvalidKeySize`; `from_hex` on a non-hex
string fails with `InvalidKey` and on a wrong-length hex string with
`InvalidKeySize`. -/
theorem key_codec_round_trip (k : List Nat) (hlen : k.length = 32)
    (hbytes : ∀ b ∈ k, b < 256) :
    key_from_hex (key_to_hex k) = .ok k ∧
    (∀ data : List Nat, data.length ≠ 32 →
      key_from_bytes data = .error (.formatInvalidKeySize data.length)) ∧
    (∀ s, hexDec s.data = none →
      key_from_hex s = .error (.formatInvalidKey "could not deserialize hex encoded key")) ∧
    (∀ s bs, hexDec s.data = some bs → bs.length ≠ 32 →
      key_from_hex s = .error (.formatInvalidKeySize bs.length)) := by
  refine ⟨?_, ?_, ?_, ?_⟩
  · have hdata : (String.mk (hexEnc k)).data = hexEnc k := rfl
    have hall : k.all (fun b => decide (b < 256)) = true := by
      rw [List.all_eq_true]
      intro x hx
      exact decide_eq_true (hbytes x hx)
    simp [key_from_hex, key_to_hex, hdata, hexDec_enc k hbytes, key_from_bytes, hlen, hall]
  · intro data hd
    simp [key_from_bytes, hd]
  · intro s hs
    simp [key_from_hex, hs]
  · intro s bs hs hlen2
    simp [key_from_hex, hs, key_from_bytes, hlen2]

/-- C9 witness: hex round trip of a concrete 32-byte key and
`InvalidKeySize` on a 31-byte buffer. -/
theorem key_codec_round_trip_witness :
    key_from_hex (key_to_hex (List.replicate 32 7)) = .ok (List.replicate 32 7) ∧
    key_from_bytes (List.replicate 31 7) = .error (.formatInvalidKeySize 31) := by
  have h := key_codec_round_trip (List.replicate 32 7) (by decide) (by decide)
  exact ⟨h.1, h.2.1 (List.replicate 31 7) (by decide)⟩

/-- C10: a token has exactly one revocation identifier per block, in
block order, each the URL-safe base64 encoding of that block's signature
bytes; the list is a pure function of the token (hence identical across
repeated calls) and is preserved by a serialization round trip. -/
theorem revocation_identifiers_stable (t : Biscuit) (h : ValidBiscuit t) :
    t.revocation_identifiers.length = t.block_count ∧
    (∀ k (hk : k < t.blocks.length),
      t.revocation_identifiers[k]? =
        some (String.mk (b64e (lebEnc (t.blocks.get ⟨k, hk⟩).sig)))) ∧
    (∃ t2, Biscuit.from_bytes t.to_bytes t.rootKey = .ok t2 ∧
      t2.revocation_identifiers = t.revocation_identifiers) := by
  refine ⟨?_, ?_, ⟨t, from_bytes_to_bytes t h, rfl⟩⟩
  · simp [Biscuit.revocation_identifiers, Biscuit.block_count]
  · intro k hk
    simp [Biscuit.revocation_identifiers, List.getElem?_eq_getElem hk]

/-- C10 witness: the concrete valid one-block token has one identifier
per block, each the base64 of its block's signature bytes, preserved
across a round trip. -/
theorem revocation_identifiers_stable_witness :
    tok0.revocation_identifiers.length = tok0.block_count ∧
    (∀ k (hk : k < tok0.blocks.length),
      tok0.revocation_identifiers[k]? =
        some (String.mk (b64e (lebEnc (tok0.blocks.get ⟨k, hk⟩).sig)))) ∧
    (∃ t2, Biscuit.from_bytes tok0.to_bytes tok0.rootKey = .ok t2 ∧
      t2.revocation_identifiers = tok0.revocation_identifiers) :=
  revocation_identifiers_stable tok0 (by decide)

end BiscuitWasm
